import Mathlib

/-!
Shallow embedding of the Jllama batched decoding loop and nucleus sampler
from `src/Jllama/generation.py`.  Probabilities are modelled as rationals,
token ids as integers.  The external model collaborator (a transformer
producing logits) together with the softmax / argmax branch is abstracted
by a candidate oracle giving, for each decode step and current buffer, the
per-row candidate token; the randomness of `jt.multinomial` is modelled by
an explicit inverse-CDF draw at a given rational point.
-/

namespace Jllama

/-- Token ids are machine integers in the source. -/
abbrev Token := Int

/-! ### Nucleus sampler, `sample_top_p` (generation.py lines 306-328) -/

/-- Semantics of `jt.cumsum` on one row (line 322): inclusive prefix sums. -/
def cumsum (l : List ℚ) : List ℚ :=
  (List.range l.length).map (fun i => (l.take (i + 1)).sum)

/-- Line 321: `jt.sort(probs, dim=-1, descending=True)` returning both the
sorted values and the original indices, modelled as a stable merge sort of
value-index pairs, descending in the value. -/
def sortDesc (probs : List ℚ) : List (ℚ × ℕ) :=
  (probs.zip (List.range probs.length)).mergeSort (fun a b => decide (b.1 ≤ a.1))

/-- Component `probs_sort` of the sort's output (line 321). -/
def probsSort (probs : List ℚ) : List ℚ := (sortDesc probs).map Prod.fst

/-- Component `probs_idx` of the sort's output (line 321). -/
def probsIdx (probs : List ℚ) : List ℕ := (sortDesc probs).map Prod.snd

/-- Lines 322-324: `mask = probs_sum - probs_sort > p; probs_sort[mask] = 0.0`
applied to the descending-sorted row of values. -/
def truncate (pv : List ℚ) (p : ℚ) : List ℚ :=
  (pv.zip (cumsum pv)).map (fun sc => if p < sc.2 - sc.1 then 0 else sc.1)

/-- Line 325: `probs_sort.divide(probs_sort.sum(dim=-1, keepdim=True))`. -/
def renorm (l : List ℚ) : List ℚ := l.map (fun x => x / l.sum)

/-- Semantics of `jt.multinomial(w, num_samples=1, replacement=True)`
(line 326): an inverse-CDF draw at the random point `r`, which a sampler
takes uniformly from `[0, w.sum)`. -/
def multinomial : List ℚ → ℚ → ℕ
  | [], _ => 0
  | w :: ws, r => if r < w then 0 else multinomial ws (r - w) + 1

/-- Sorted position drawn by line 326 for one row. -/
def sampledSortedPos (probs : List ℚ) (p r : ℚ) : ℕ :=
  multinomial (renorm (truncate (probsSort probs) p)) r

/-- Lines 306-328 for one row: `sample_top_p(probs, p)` with the
multinomial draw made at random point `r`; line 327 (`jt.gather`) maps the
drawn sorted position back to the original vocabulary index. -/
def sample_top_p (probs : List ℚ) (p r : ℚ) : ℕ :=
  (probsIdx probs).getD (sampledSortedPos probs p r) 0

/-- Number of sorted entries NOT zeroed by the mask of line 323; the mask
zeroes entry `k` exactly when the cumulative sum up to `k` minus the entry
itself — that is, the sum of the `k` entries before it — exceeds `p`. -/
def keptCount (pv : List ℚ) (p : ℚ) : ℕ :=
  (List.range pv.length).countP (fun k => !decide (p < (pv.take k).sum))

/-- Modelled from the spec: the size of "the smallest sorted prefix whose
cumulative probability reaches or exceeds `p`" (the gloss of the kept set
in claim C1 and spec section 4.3), or `pv.length` when no prefix reaches
`p`. -/
def smallestPrefixReaching (pv : List ℚ) (p : ℚ) : ℕ :=
  (((List.range (pv.length + 1)).find? (fun k => decide (p ≤ (pv.take k).sum))).getD pv.length)

/-- Size of the smallest sorted prefix whose cumulative probability
strictly exceeds `p`, or `pv.length` when none does: the amended
characterisation of the kept set. -/
def smallestPrefixExceeding (pv : List ℚ) (p : ℚ) : ℕ :=
  (((List.range (pv.length + 1)).find? (fun k => decide (p < (pv.take k).sum))).getD pv.length)

/-! ### The decoding loop of `Llama.generate` (generation.py lines 88-190) -/

/-- Model-imposed limits and tokenizer collaborators used by `generate`:
`params.max_seq_len`, `params.max_batch_size`, `tokenizer.pad_id`,
`tokenizer.stop_tokens`. -/
structure GenConfig where
  maxSeqLen : ℕ
  maxBatchSize : ℕ
  padId : Token
  stopTokens : List Token

/-- Mutable loop state: the token buffer `tokens` and the per-row stop
flags `eos_reached` (lines 126-133). -/
structure GenState where
  tokens : List (List Token)
  eosReached : List Bool

/-- Line 120: `min(len(t) for t in prompt_tokens)`. -/
def minPromptLen (prompts : List (List Token)) : ℕ :=
  ((prompts.map List.length).min?).getD 0

/-- Line 121: `max(len(t) for t in prompt_tokens)`. -/
def maxPromptLen (prompts : List (List Token)) : ℕ :=
  ((prompts.map List.length).max?).getD 0

/-- Line 123: `total_len = min(params.max_seq_len, max_gen_len + max_prompt_len)`. -/
def totalLenOf (cfg : GenConfig) (prompts : List (List Token)) (maxGenLen : ℕ) : ℕ :=
  min cfg.maxSeqLen (maxGenLen + maxPromptLen prompts)

/-- Lines 126-128: one pad-filled buffer row overwritten with its prompt. -/
def initRow (padId : Token) (totalLen : ℕ) (t : List Token) : List Token :=
  t ++ List.replicate (totalLen - t.length) padId

/-- Lines 126-128: the full initial token buffer. -/
def initTokens (padId : Token) (totalLen : ℕ) (prompts : List (List Token)) : List (List Token) :=
  prompts.map (initRow padId totalLen)

/-- Line 134: `input_text_mask = tokens != pad_id`, computed once from the
initial buffer and never updated afterwards. -/
def inputTextMask (padId : Token) (tokens : List (List Token)) : List (List Bool) :=
  tokens.map (fun row => row.map (fun t => t != padId))

/-- Mask lookup, `false` outside the grid. -/
def maskAt (mask : List (List Bool)) (i j : ℕ) : Bool := (mask.getD i []).getD j false

/-- Buffer lookup, `0` outside the grid. -/
def cellAt (tokens : List (List Token)) (i j : ℕ) : Token := (tokens.getD i []).getD j 0

/-- Lines 155-157: `jt.where(input_text_mask[:, cur_pos], tokens[:, cur_pos],
next_token)` — prompt replay takes precedence over the candidate. -/
def nextToks (mask : List (List Bool)) (tokens : List (List Token))
    (cand : List Token) (pos : ℕ) : List Token :=
  (List.range tokens.length).map (fun i =>
    if maskAt mask i pos then cellAt tokens i pos else cand.getD i 0)

/-- One iteration of lines 146-167 with the model call and the sampling
branch abstracted into the candidate row `cand`: write the chosen tokens
into column `pos` (line 158) and fold stop detection into `eos_reached`
(line 166). -/
def doStep (stops : List Token) (mask : List (List Bool)) (pos : ℕ)
    (cand : List Token) (st : GenState) : GenState :=
  let nt := nextToks mask st.tokens cand pos
  { tokens := (List.range st.tokens.length).map (fun i =>
      (st.tokens.getD i []).set pos (nt.getD i 0)),
    eosReached := (List.range st.tokens.length).map (fun i =>
      st.eosReached.getD i false ||
        (!maskAt mask i pos && decide (nt.getD i 0 ∈ stops))) }

/-- Lines 145-169: the loop over `cur_pos` with the `break` of line 168-169
once every row's stop flag is set.  The second component counts executed
iterations, i.e. model invocations made from inside the loop. -/
def genLoop (stops : List Token) (mask : List (List Bool))
    (cand : ℕ → List (List Token) → List Token) :
    List ℕ → GenState → GenState × ℕ
  | [], st => (st, 0)
  | pos :: rest, st =>
    let st' := doStep stops mask pos (cand pos st.tokens) st
    if st'.eosReached.all (fun b => b) then (st', 1)
    else
      let q := genLoop stops mask cand rest st'
      (q.1, q.2 + 1)

/-- Lines 123-169 after the asserts: buffer construction, mask computation
and the decode loop over `range(min_prompt_len, total_len)`. -/
def generateRaw (cfg : GenConfig) (cand : ℕ → List (List Token) → List Token)
    (prompts : List (List Token)) (maxGenLen : ℕ) : GenState × ℕ :=
  let totalLen := totalLenOf cfg prompts maxGenLen
  let toks0 := initTokens cfg.padId totalLen prompts
  let mask := inputTextMask cfg.padId toks0
  genLoop cfg.stopTokens mask cand
    (List.range' (minPromptLen prompts) (totalLen - minPromptLen prompts))
    { tokens := toks0, eosReached := List.replicate prompts.length false }

/-- Lines 181-187: the sequential truncation of one trimmed row at each
stop token's first occurrence.  `List.findIdx` returns the row's length
when the token is absent, and taking that many elements is the identity,
which matches the `except ValueError: pass` branch of the source. -/
def cutStops : List Token → List Token → List Token
  | [], toks => toks
  | s :: rest, toks => cutStops rest (toks.take (toks.findIdx (fun t => t == s)))

/-- Lines 181-187 with the logprob row cut at the same indices (line 185);
in the source both rows were sliced from buffers of identical width. -/
def cutStopsPair : List Token → List Token × List ℚ → List Token × List ℚ
  | [], tp => tp
  | s :: rest, (toks, lp) =>
    cutStopsPair rest
      (toks.take (toks.findIdx (fun t => t == s)),
       lp.take (toks.findIdx (fun t => t == s)))

/-- Lines 173-187 for one row: slice to
`[start, prompt_len + max_gen_len)` with `start = 0` when echoing and the
row's own prompt length otherwise, then cut at stop tokens. -/
def trimRow (stops : List Token) (echo : Bool) (promptLen maxGenLen : ℕ)
    (row : List Token) : List Token :=
  cutStops stops ((row.take (promptLen + maxGenLen)).drop (if echo then 0 else promptLen))

/-- Lines 172-189: per-row post-processing over the final buffer. -/
def postProcess (cfg : GenConfig) (echo : Bool) (prompts : List (List Token))
    (maxGenLen : ℕ) (finalTokens : List (List Token)) : List (List Token) :=
  (List.range prompts.length).map (fun i =>
    trimRow cfg.stopTokens echo (prompts.getD i []).length maxGenLen (finalTokens.getD i []))

/-- Lines 116-190, logprob values aside: the asserts of lines 118 and 122
(modelled as `Except.error "InvalidInput"`), the `ValueError` that Python's
`min` raises on an empty batch at line 120, the priming model call of lines
136-143 when `min_prompt_len == total_len`, the decode loop, and the
per-row trimming.  The `ℕ` in the result counts model invocations. -/
def generate (cfg : GenConfig) (cand : ℕ → List (List Token) → List Token)
    (prompts : List (List Token)) (maxGenLen : ℕ) (echo : Bool) :
    Except String (List (List Token) × ℕ) :=
  if cfg.maxBatchSize < prompts.length then .error "InvalidInput"
  else if prompts.isEmpty then .error "ValueError"
  else if cfg.maxSeqLen < maxPromptLen prompts then .error "InvalidInput"
  else
    let res := generateRaw cfg cand prompts maxGenLen
    let priming : ℕ :=
      if minPromptLen prompts = totalLenOf cfg prompts maxGenLen then 1 else 0
    .ok (postProcess cfg echo prompts maxGenLen res.1.tokens, priming + res.2)

/-! ### List helper lemmas -/

theorem getD_map_range {α : Type} (n : ℕ) (f : ℕ → α) (d : α) (i : ℕ) (hi : i < n) :
    ((List.range n).map f).getD i d = f i := by
  rw [List.getD_eq_getElem _ _ (by simpa using hi)]
  simp

theorem findIdx_le_of_getElem {α : Type} (p : α → Bool) (l : List α) (i : ℕ)
    (hi : i < l.length) (hp : p (l.get ⟨i, hi⟩) = true) : l.findIdx p ≤ i := by
  by_contra h
  push_neg at h
  have := List.not_of_lt_findIdx h
  simp only [List.get_eq_getElem] at hp
  rw [this] at hp
  exact Bool.false_ne_true hp

theorem le_findIdx_of_forall {α : Type} (p : α → Bool) (l : List α) (n : ℕ)
    (hn : n ≤ l.length)
    (h : ∀ k (hk : k < n), p (l.get ⟨k, lt_of_lt_of_le hk hn⟩) = false) :
    n ≤ l.findIdx p := by
  by_contra hcon
  push_neg at hcon
  have hlt : l.findIdx p < l.length := lt_of_lt_of_le hcon hn
  have htrue := List.findIdx_getElem (w := hlt)
  have hfalse := h (l.findIdx p) hcon
  simp only [List.get_eq_getElem] at hfalse
  rw [hfalse] at htrue
  exact Bool.false_ne_true htrue

theorem findIdx_le_findIdx_of_imp {α : Type} (p q : α → Bool) (l : List α)
    (h : ∀ x ∈ l, p x = true → q x = true) : l.findIdx q ≤ l.findIdx p := by
  induction l with
  | nil => simp
  | cons a l ih =>
    simp only [List.findIdx_cons]
    cases hpa : p a with
    | true => simp [h a (by simp) hpa]
    | false =>
      cases hqa : q a with
      | true => simp
      | false =>
        simpa using Nat.succ_le_succ (ih (fun x hx => h x (by simp [hx])))

/-! ### Post-processing lemmas -/

theorem cutStops_prefixOf (stops toks : List Token) : cutStops stops toks <+: toks := by
  induction stops generalizing toks with
  | nil => exact List.prefix_refl _
  | cons s rest ih =>
    exact (ih _).trans ⟨_, List.take_append_drop _ _⟩

/-- Abstract core of the sequential-cut equivalence: truncating first at
the earliest `p`-position and then, inside that prefix, at the earliest
`q`-position is one truncation at the earliest position satisfying `p` or
`q`. -/
theorem take_findIdx_or {α : Type} (p q : α → Bool) (toks : List α) :
    (toks.take (toks.findIdx p)).take ((toks.take (toks.findIdx p)).findIdx q)
      = toks.take (toks.findIdx (fun t => p t || q t)) := by
  have hji : toks.findIdx (fun t => p t || q t) ≤ toks.findIdx p :=
    findIdx_le_findIdx_of_imp _ _ _ (fun x _ hx => by simp [hx])
  rcases Nat.lt_or_ge (toks.findIdx (fun t => p t || q t)) (toks.findIdx p) with hlt | hge
  · -- the earliest combined position lies strictly before the earliest `p` one
    have hjlen : toks.findIdx (fun t => p t || q t) < toks.length :=
      lt_of_lt_of_le hlt (List.findIdx_le_length _)
    have hq : (p toks[toks.findIdx (fun t => p t || q t)]
        || q toks[toks.findIdx (fun t => p t || q t)]) = true :=
      List.findIdx_getElem (w := hjlen)
    have hne : p toks[toks.findIdx (fun t => p t || q t)] = false :=
      List.not_of_lt_findIdx hlt
    have hmem : q toks[toks.findIdx (fun t => p t || q t)] = true := by
      rw [hne] at hq
      simpa using hq
    have hmin : toks.findIdx (fun t => p t || q t) < (toks.take (toks.findIdx p)).length := by
      rw [List.length_take]
      exact lt_min hlt hjlen
    have h1 : (toks.take (toks.findIdx p)).findIdx q ≤ toks.findIdx (fun t => p t || q t) := by
      apply findIdx_le_of_getElem _ _ _ hmin
      simp only [List.get_eq_getElem, List.getElem_take]
      exact hmem
    have h2 : toks.findIdx (fun t => p t || q t) ≤ (toks.take (toks.findIdx p)).findIdx q := by
      apply le_findIdx_of_forall _ _ _ hmin.le
      intro k hk
      have hkt : k < toks.length := lt_of_lt_of_le hk hjlen.le
      have hfalse : (p toks[k] || q toks[k]) = false := List.not_of_lt_findIdx hk
      simp only [List.get_eq_getElem, List.getElem_take]
      simp only [Bool.or_eq_false_iff] at hfalse
      exact hfalse.2
    rw [le_antisymm h1 h2, List.take_take, min_eq_left hlt.le]
  · -- the earliest `p` position is itself the earliest combined one
    have hij : toks.findIdx p = toks.findIdx (fun t => p t || q t) := le_antisymm hge hji
    have hall : (toks.take (toks.findIdx p)).findIdx q = (toks.take (toks.findIdx p)).length := by
      rw [List.findIdx_eq_length]
      intro x hx
      obtain ⟨k, hk, hkx⟩ := List.mem_iff_getElem.mp hx
      have hki : k < toks.findIdx (fun t => p t || q t) := by
        rw [← hij]
        exact lt_of_lt_of_le hk (by rw [List.length_take]; exact min_le_left _ _)
      have hkt : k < toks.length :=
        lt_of_lt_of_le hk (by rw [List.length_take]; exact min_le_right _ _)
      have hfalse : (p toks[k] || q toks[k]) = false := List.not_of_lt_findIdx hki
      rw [← hkx]
      simp only [List.getElem_take]
      simp only [Bool.or_eq_false_iff] at hfalse
      exact hfalse.2
    rw [hall, List.take_length, hij]

/-- Sequentially cutting at each stop token's first occurrence equals one
cut at the minimal first-occurrence index over all stop tokens. -/
theorem cutStops_eq_take_findIdx (stops toks : List Token) :
    cutStops stops toks = toks.take (toks.findIdx (fun t => decide (t ∈ stops))) := by
  induction stops generalizing toks with
  | nil =>
    have hlen : toks.findIdx (fun t => decide (t ∈ ([] : List Token))) = toks.length := by
      rw [List.findIdx_eq_length]
      intro x _
      simp
    rw [cutStops, hlen, List.take_length]
  | cons s rest ih =>
    rw [cutStops, ih, take_findIdx_or (fun t => t == s) (fun t => decide (t ∈ rest)) toks]
    congr 1
    congr 1
    funext x
    rcases eq_or_ne x s with h | h <;> simp [h, List.mem_cons]

/-- Cutting the logprob row at the same indices amounts to trimming it to
the final token row's length. -/
theorem cutStopsPair_eq (stops : List Token) (toks : List Token) (lp : List ℚ)
    (hlen : lp.length = toks.length) :
    cutStopsPair stops (toks, lp)
      = (cutStops stops toks, lp.take (cutStops stops toks).length) := by
  induction stops generalizing toks lp with
  | nil =>
    simp [cutStopsPair, cutStops, hlen ▸ List.take_length lp]
  | cons s rest ih =>
    rw [cutStopsPair, cutStops]
    rw [ih _ _ (by simp [hlen])]
    have hle : (cutStops rest (toks.take (toks.findIdx (fun t => t == s)))).length
        ≤ toks.findIdx (fun t => t == s) :=
      le_trans (cutStops_prefixOf _ _).length_le (by simp)
    rw [List.take_take, min_eq_left hle]

/-- On success, the returned sequences are the post-processing of the final
buffer of the decode loop. -/
theorem generate_ok_outs (cfg : GenConfig) (cand : ℕ → List (List Token) → List Token)
    (prompts : List (List Token)) (mgl : ℕ) (echo : Bool)
    (outs : List (List Token)) (n : ℕ)
    (hok : generate cfg cand prompts mgl echo = .ok (outs, n)) :
    outs = postProcess cfg echo prompts mgl (generateRaw cfg cand prompts mgl).1.tokens := by
  unfold generate at hok
  split_ifs at hok
  all_goals
    injection hok with h
    injection h with h1 h2
    exact h1.symm

/-- Row extraction on success: the returned row is the slice of the final
buffer row cut at stop tokens. -/
theorem generate_outs_row (cfg : GenConfig) (cand : ℕ → List (List Token) → List Token)
    (prompts : List (List Token)) (mgl : ℕ) (echo : Bool)
    (outs : List (List Token)) (n : ℕ)
    (hok : generate cfg cand prompts mgl echo = .ok (outs, n))
    (i : ℕ) (hi : i < prompts.length) :
    outs.getD i [] =
      cutStops cfg.stopTokens
        ((((generateRaw cfg cand prompts mgl).1.tokens.getD i []).take
            ((prompts.getD i []).length + mgl)).drop
          (if echo then 0 else (prompts.getD i []).length)) := by
  rw [generate_ok_outs cfg cand prompts mgl echo outs n hok]
  unfold postProcess
  rw [getD_map_range _ _ _ _ hi]
  rfl

/-- C2: each returned row is independently the slice
`[start, prompt_len + max_gen_len)` of its final buffer row — `start = 0`
iff echoing, the end implicitly clipped by the slice — truncated at stop
tokens; the source's sequential per-stop-token loop equals one truncation
at the minimal first-occurrence index over all stop tokens, and a logprob
row is trimmed at the identical indices. -/
theorem generate_trim_spec (cfg : GenConfig) (cand : ℕ → List (List Token) → List Token)
    (prompts : List (List Token)) (mgl : ℕ) (echo : Bool)
    (outs : List (List Token)) (n : ℕ)
    (hok : generate cfg cand prompts mgl echo = .ok (outs, n)) :
    (∀ i, i < prompts.length →
      outs.getD i [] =
        cutStops cfg.stopTokens
          ((((generateRaw cfg cand prompts mgl).1.tokens.getD i []).take
              ((prompts.getD i []).length + mgl)).drop
            (if echo then 0 else (prompts.getD i []).length)))
    ∧ (∀ toks : List Token,
        cutStops cfg.stopTokens toks
          = toks.take (toks.findIdx (fun t => decide (t ∈ cfg.stopTokens))))
    ∧ (∀ (toks : List Token) (lp : List ℚ), lp.length = toks.length →
        cutStopsPair cfg.stopTokens (toks, lp)
          = (cutStops cfg.stopTokens toks,
             lp.take (cutStops cfg.stopTokens toks).length)) := by
  exact ⟨generate_outs_row cfg cand prompts mgl echo outs n hok,
    fun toks => cutStops_eq_take_findIdx _ _,
    fun toks lp h => cutStopsPair_eq _ _ _ h⟩

theorem generate_trim_spec_witness :
    cutStops [9] [5, 9, 7]
      = [5, 9, 7].take (([5, 9, 7] : List Token).findIdx
          (fun t => decide (t ∈ ([9] : List Token)))) :=
  (generate_trim_spec ⟨10, 4, 0, [9]⟩ (fun _ _ => [7]) [[1]] 1 false [[7]] 1 rfl).2.1 [5, 9, 7]

/-- C8: the input-text mask, computed once at construction from the
pad-filled buffer, is false at every column at or beyond the row's own
prompt length, so columns later filled by generated tokens are never
reported as prompt positions. -/
theorem inputTextMask_false_beyond (padId : Token) (totalLen : ℕ)
    (prompts : List (List Token)) (i j : ℕ)
    (hj : (prompts.getD i []).length ≤ j) :
    maskAt (inputTextMask padId (initTokens padId totalLen prompts)) i j = false := by
  unfold maskAt inputTextMask initTokens
  rcases Nat.lt_or_ge i prompts.length with hi | hi
  · have hi' : i < ((prompts.map (initRow padId totalLen)).map
        (fun row => row.map (fun t => t != padId))).length := by simpa using hi
    rw [List.getD_eq_getElem _ _ hi']
    simp only [List.getElem_map]
    rcases Nat.lt_or_ge j (initRow padId totalLen prompts[i]).length with hj2 | hj2
    · rw [List.getD_eq_getElem _ _ (by simpa using hj2)]
      simp only [List.getElem_map]
      have hjp : prompts[i].length ≤ j := by
        rwa [List.getD_eq_getElem _ _ hi] at hj
      unfold initRow at hj2 ⊢
      rw [List.getElem_append_right hjp]
      simp
    · exact List.getD_eq_default _ _ (by simpa using hj2)
  · have hnil : ((prompts.map (initRow padId totalLen)).map
        (fun row => row.map (fun t => t != padId))).getD i [] = [] :=
      List.getD_eq_default _ _ (by simpa using hi)
    rw [hnil]
    simp [List.getD]

theorem inputTextMask_false_beyond_witness :
    (([[5, 0, 6], [7]] : List (List Token)).getD 0 []).length ≤ 3
    ∧ maskAt (inputTextMask 0 (initTokens 0 4 [[5, 0, 6], [7]])) 0 3 = false :=
  ⟨by decide, inputTextMask_false_beyond 0 4 [[5, 0, 6], [7]] 0 3 (by decide)⟩

/-! ### Decode-loop invariants -/

theorem getD_set_self {α : Type} (l : List α) (m : ℕ) (v d : α) :
    (l.set m v).getD m d = if m < l.length then v else d := by
  rcases Nat.lt_or_ge m l.length with h | h
  · rw [List.getD_eq_getElem _ _ (by simpa using h), List.getElem_set, if_pos rfl, if_pos h]
  · rw [List.getD_eq_default _ _ (by simpa using h), if_neg (not_lt.mpr h)]

theorem getD_set_ne {α : Type} (l : List α) (m j : ℕ) (v d : α) (h : m ≠ j) :
    (l.set m v).getD j d = l.getD j d := by
  rcases Nat.lt_or_ge j l.length with hj | hj
  · rw [List.getD_eq_getElem _ _ (by simpa using hj), List.getElem_set_ne h,
      List.getD_eq_getElem _ _ hj]
  · rw [List.getD_eq_default _ _ (by simpa using hj), List.getD_eq_default _ _ hj]

theorem doStep_tokens_def (stops : List Token) (mask : List (List Bool)) (pos : ℕ)
    (cand : List Token) (st : GenState) :
    (doStep stops mask pos cand st).tokens
      = (List.range st.tokens.length).map (fun i =>
          (st.tokens.getD i []).set pos ((nextToks mask st.tokens cand pos).getD i 0)) := rfl

theorem doStep_eos_def (stops : List Token) (mask : List (List Bool)) (pos : ℕ)
    (cand : List Token) (st : GenState) :
    (doStep stops mask pos cand st).eosReached
      = (List.range st.tokens.length).map (fun i =>
          st.eosReached.getD i false ||
            (!maskAt mask i pos
              && decide ((nextToks mask st.tokens cand pos).getD i 0 ∈ stops))) := rfl

theorem nextToks_getD (mask : List (List Bool)) (tokens : List (List Token))
    (cand : List Token) (pos i : ℕ) (hi : i < tokens.length) :
    (nextToks mask tokens cand pos).getD i 0
      = if maskAt mask i pos then cellAt tokens i pos else cand.getD i 0 := by
  unfold nextToks
  exact getD_map_range _ _ _ _ hi

theorem doStep_tokens_length (stops : List Token) (mask : List (List Bool)) (pos : ℕ)
    (cand : List Token) (st : GenState) :
    (doStep stops mask pos cand st).tokens.length = st.tokens.length := by
  rw [doStep_tokens_def]
  simp

theorem doStep_row_length (stops : List Token) (mask : List (List Bool)) (pos : ℕ)
    (cand : List Token) (st : GenState) (i : ℕ) :
    ((doStep stops mask pos cand st).tokens.getD i []).length
      = (st.tokens.getD i []).length := by
  rcases Nat.lt_or_ge i st.tokens.length with hi | hi
  · rw [doStep_tokens_def, getD_map_range _ _ _ _ hi, List.length_set]
  · rw [doStep_tokens_def, List.getD_eq_default _ _ (by simpa using hi),
      List.getD_eq_default _ _ hi]

/-- Writing a step changes only column `pos`; a masked cell keeps its old
value even there, because the replay branch writes the old value back. -/
theorem doStep_cell_mask (stops : List Token) (mask : List (List Bool)) (pos : ℕ)
    (cand : List Token) (st : GenState) (i j : ℕ) (hm : maskAt mask i j = true) :
    cellAt (doStep stops mask pos cand st).tokens i j = cellAt st.tokens i j := by
  unfold cellAt
  rcases Nat.lt_or_ge i st.tokens.length with hi | hi
  · rw [doStep_tokens_def, getD_map_range _ _ _ _ hi]
    rcases eq_or_ne pos j with hpj | hpj
    · subst hpj
      rw [getD_set_self, nextToks_getD _ _ _ _ _ hi, if_pos hm]
      unfold cellAt
      split_ifs with h
      · rfl
      · rw [List.getD_eq_default _ _ (not_lt.mp h)]
    · rw [getD_set_ne _ _ _ _ _ hpj]
  · have h1 : ((List.range st.tokens.length).map (fun k =>
        (st.tokens.getD k []).set pos ((nextToks mask st.tokens cand pos).getD k 0))).getD i []
          = [] :=
      List.getD_eq_default _ _ (by simpa using hi)
    have h2 : st.tokens.getD i [] = [] := List.getD_eq_default _ _ hi
    rw [doStep_tokens_def, h1, h2]

theorem genLoop_cell_mask (stops : List Token) (mask : List (List Bool))
    (cand : ℕ → List (List Token) → List Token) (positions : List ℕ)
    (st : GenState) (i j : ℕ) (hm : maskAt mask i j = true) :
    cellAt (genLoop stops mask cand positions st).1.tokens i j = cellAt st.tokens i j := by
  induction positions generalizing st with
  | nil => rfl
  | cons pos rest ih =>
    simp only [genLoop]
    split_ifs with h
    · exact doStep_cell_mask _ _ _ _ _ _ _ hm
    · rw [ih]
      exact doStep_cell_mask _ _ _ _ _ _ _ hm

theorem genLoop_tokens_length (stops : List Token) (mask : List (List Bool))
    (cand : ℕ → List (List Token) → List Token) (positions : List ℕ) (st : GenState) :
    (genLoop stops mask cand positions st).1.tokens.length = st.tokens.length := by
  induction positions generalizing st with
  | nil => rfl
  | cons pos rest ih =>
    simp only [genLoop]
    split_ifs with h
    · exact doStep_tokens_length _ _ _ _ _
    · rw [ih, doStep_tokens_length]

theorem genLoop_row_length (stops : List Token) (mask : List (List Bool))
    (cand : ℕ → List (List Token) → List Token) (positions : List ℕ)
    (st : GenState) (i : ℕ) :
    ((genLoop stops mask cand positions st).1.tokens.getD i []).length
      = (st.tokens.getD i []).length := by
  induction positions generalizing st with
  | nil => rfl
  | cons pos rest ih =>
    simp only [genLoop]
    split_ifs with h
    · exact doStep_row_length _ _ _ _ _ _
    · rw [ih, doStep_row_length]

/-! ### Initial-buffer facts -/

theorem initTokens_getD (padId : Token) (totalLen : ℕ) (prompts : List (List Token))
    (i : ℕ) (hi : i < prompts.length) :
    (initTokens padId totalLen prompts).getD i []
      = initRow padId totalLen (prompts.getD i []) := by
  unfold initTokens
  rw [List.getD_eq_getElem _ _ (by simpa using hi), List.getElem_map,
    List.getD_eq_getElem _ _ hi]

theorem initRow_length_ge (padId : Token) (totalLen : ℕ) (t : List Token) :
    t.length ≤ (initRow padId totalLen t).length := by
  unfold initRow
  rw [List.length_append]
  omega

theorem initRow_getD_lt (padId : Token) (totalLen : ℕ) (t : List Token) (j : ℕ)
    (hj : j < t.length) :
    (initRow padId totalLen t).getD j 0 = t.getD j 0 := by
  unfold initRow
  rw [List.getD_eq_getElem _ _ (by rw [List.length_append]; omega),
    List.getElem_append_left hj, List.getD_eq_getElem _ _ hj]

theorem maskAt_init_true (padId : Token) (totalLen : ℕ) (prompts : List (List Token))
    (i j : ℕ) (hi : i < prompts.length) (hj : j < (prompts.getD i []).length)
    (hpad : (prompts.getD i []).getD j 0 ≠ padId) :
    maskAt (inputTextMask padId (initTokens padId totalLen prompts)) i j = true := by
  unfold maskAt inputTextMask
  have hmask : ((initTokens padId totalLen prompts).map
      (fun row => row.map (fun t => t != padId))).getD i []
        = (initRow padId totalLen (prompts.getD i [])).map (fun t => t != padId) := by
    rw [List.getD_eq_getElem _ _ (by simpa [initTokens] using hi)]
    rw [List.getElem_map]
    congr 1
    rw [← initTokens_getD padId totalLen prompts i hi,
      List.getD_eq_getElem _ _ (by simpa [initTokens] using hi)]
  rw [hmask]
  have hjlen : j < (initRow padId totalLen (prompts.getD i [])).length :=
    lt_of_lt_of_le hj (initRow_length_ge _ _ _)
  rw [List.getD_eq_getElem _ _ (by simpa using hjlen)]
  simp only [List.getElem_map]
  have hv : (initRow padId totalLen (prompts.getD i []))[j] = (prompts.getD i []).getD j 0 := by
    rw [← initRow_getD_lt padId totalLen _ _ hj, List.getD_eq_getElem _ _ hjlen]
  rw [hv]
  simpa using hpad

theorem generateRaw_def (cfg : GenConfig) (cand : ℕ → List (List Token) → List Token)
    (prompts : List (List Token)) (mgl : ℕ) :
    generateRaw cfg cand prompts mgl
      = genLoop cfg.stopTokens
          (inputTextMask cfg.padId (initTokens cfg.padId (totalLenOf cfg prompts mgl) prompts))
          cand
          (List.range' (minPromptLen prompts) (totalLenOf cfg prompts mgl - minPromptLen prompts))
          { tokens := initTokens cfg.padId (totalLenOf cfg prompts mgl) prompts,
            eosReached := List.replicate prompts.length false } := rfl

/-- With a pad-free prompt, the decode loop leaves the row's prompt prefix
equal to the original prompt token sequence. -/
theorem prompt_take_eq (cfg : GenConfig)
    (cand : ℕ → List (List Token) → List Token) (prompts : List (List Token))
    (mgl : ℕ) (i : ℕ) (hi : i < prompts.length)
    (hpad : cfg.padId ∉ prompts.getD i []) :
    ((generateRaw cfg cand prompts mgl).1.tokens.getD i []).take
        (prompts.getD i []).length = prompts.getD i [] := by
  have hrowlen : ((generateRaw cfg cand prompts mgl).1.tokens.getD i []).length
      = (initRow cfg.padId (totalLenOf cfg prompts mgl) (prompts.getD i [])).length := by
    rw [generateRaw_def, genLoop_row_length]
    rw [initTokens_getD _ _ _ _ hi]
  have hge := initRow_length_ge cfg.padId (totalLenOf cfg prompts mgl) (prompts.getD i [])
  apply List.ext_getElem
  · rw [List.length_take, hrowlen]
    omega
  · intro j h1 h2
    have hj : j < (prompts.getD i []).length := h2
    have hmask : maskAt (inputTextMask cfg.padId
        (initTokens cfg.padId (totalLenOf cfg prompts mgl) prompts)) i j = true := by
      apply maskAt_init_true _ _ _ _ _ hi hj
      intro hcon
      apply hpad
      rw [← hcon, List.getD_eq_getElem _ _ hj]
      exact List.getElem_mem _
    have hcell : cellAt (generateRaw cfg cand prompts mgl).1.tokens i j
        = cellAt (initTokens cfg.padId (totalLenOf cfg prompts mgl) prompts) i j := by
      rw [generateRaw_def]
      exact genLoop_cell_mask _ _ _ _ _ _ _ hmask
    have hinit : cellAt (initTokens cfg.padId (totalLenOf cfg prompts mgl) prompts) i j
        = (prompts.getD i []).getD j 0 := by
      unfold cellAt
      rw [initTokens_getD _ _ _ _ hi, initRow_getD_lt _ _ _ _ hj]
    have hjrow : j < ((generateRaw cfg cand prompts mgl).1.tokens.getD i []).length := by
      rw [hrowlen]
      omega
    rw [List.getElem_take]
    have hcellj : ((generateRaw cfg cand prompts mgl).1.tokens.getD i [])[j]
        = cellAt (generateRaw cfg cand prompts mgl).1.tokens i j := by
      unfold cellAt
      rw [List.getD_eq_getElem _ _ hjrow]
    rw [hcellj, hcell, hinit, List.getD_eq_getElem _ _ hj]

/-- C3 (amended: provided the row's prompt does not contain `pad_id`):
whenever the input-text mask is true at a cell being written, the step
writes the original token back, and the full decode loop leaves the row's
prompt prefix equal to the original prompt token sequence. -/
theorem generate_prompt_preserved (cfg : GenConfig)
    (cand : ℕ → List (List Token) → List Token) (prompts : List (List Token))
    (mgl : ℕ) (i : ℕ) (hi : i < prompts.length)
    (hpad : cfg.padId ∉ prompts.getD i []) :
    (∀ (stops : List Token) (mask : List (List Bool)) (pos : ℕ) (c : List Token)
        (st : GenState), maskAt mask i pos = true →
        cellAt (doStep stops mask pos c st).tokens i pos = cellAt st.tokens i pos)
    ∧ ((generateRaw cfg cand prompts mgl).1.tokens.getD i []).take
        (prompts.getD i []).length = prompts.getD i [] :=
  ⟨fun stops mask pos c st hm => doStep_cell_mask stops mask pos c st i pos hm,
   prompt_take_eq cfg cand prompts mgl i hi hpad⟩

theorem generate_prompt_preserved_witness :
    ((0 : Token) ∉ ([1, 2] : List Token))
    ∧ (((generateRaw ⟨10, 4, 0, [9]⟩ (fun _ _ => [7, 7]) [[1, 2], [3]] 2).1.tokens.getD 0 []).take
        (([[1, 2], [3]] : List (List Token)).getD 0 []).length
          = ([[1, 2], [3]] : List (List Token)).getD 0 []) :=
  ⟨by decide,
   (generate_prompt_preserved ⟨10, 4, 0, [9]⟩ (fun _ _ => [7, 7]) [[1, 2], [3]] 2 0
      (by decide) (by decide)).2⟩

/-- Counterexample to C3 as stated: with `pad_id = 0` occurring inside the
first prompt, the decode loop overwrites that prompt position with the
candidate token 9, so the final buffer's prompt prefix no longer equals
the original prompt. -/
theorem prompt_perturbed_counterexample :
    ((generateRaw ⟨10, 4, 0, []⟩ (fun _ _ => [9, 9]) [[5, 0, 6], [7]] 1).1.tokens.getD 0 []).take 3
      = [5, 9, 6]
    ∧ ((generateRaw ⟨10, 4, 0, []⟩ (fun _ _ => [9, 9]) [[5, 0, 6], [7]] 1).1.tokens.getD 0 []).take 3
      ≠ [5, 0, 6] := by
  constructor
  · decide
  · decide

/-- C5 (amended: the echo half additionally requires the row's prompt to
contain neither `pad_id` nor any stop token): with `echo = false` the
returned row only holds buffer positions at or beyond the row's own prompt
length, and with `echo = true` the returned row begins with the complete
original prompt. -/
theorem generate_output_window (cfg : GenConfig)
    (cand : ℕ → List (List Token) → List Token) (prompts : List (List Token))
    (mgl : ℕ) (echo : Bool) (outs : List (List Token)) (n : ℕ)
    (hok : generate cfg cand prompts mgl echo = .ok (outs, n))
    (i : ℕ) (hi : i < prompts.length) :
    (echo = false →
      outs.getD i [] <+:
        ((generateRaw cfg cand prompts mgl).1.tokens.getD i []).drop
          (prompts.getD i []).length)
    ∧ (echo = true → cfg.padId ∉ prompts.getD i [] →
        (∀ s ∈ cfg.stopTokens, s ∉ prompts.getD i []) →
        prompts.getD i [] <+: outs.getD i []) := by
  have houts := generate_outs_row cfg cand prompts mgl echo outs n hok i hi
  constructor
  · intro hecho
    subst hecho
    simp only [Bool.false_eq_true, if_false] at houts
    rw [houts]
    refine (cutStops_prefixOf _ _).trans ?_
    rw [List.drop_take]
    exact ⟨_, List.take_append_drop _ _⟩
  · intro hecho hpad hstop
    subst hecho
    simp only [if_true] at houts
    rw [houts, List.drop_zero, cutStops_eq_take_findIdx]
    have hprompt := prompt_take_eq cfg cand prompts mgl i hi hpad
    have hrowlen : (prompts.getD i []).length
        ≤ ((generateRaw cfg cand prompts mgl).1.tokens.getD i []).length := by
      rw [generateRaw_def, genLoop_row_length, initTokens_getD _ _ _ _ hi]
      exact initRow_length_ge _ _ _
    have hbiglen : (prompts.getD i []).length
        ≤ (((generateRaw cfg cand prompts mgl).1.tokens.getD i []).take
            ((prompts.getD i []).length + mgl)).length := by
      rw [List.length_take]
      exact le_min (Nat.le_add_right _ _) hrowlen
    rw [List.prefix_take_iff]
    constructor
    · -- the prompt is a prefix of the sliced row
      have htake : (((generateRaw cfg cand prompts mgl).1.tokens.getD i []).take
          ((prompts.getD i []).length + mgl)).take (prompts.getD i []).length
            = prompts.getD i [] := by
        rw [List.take_take, min_eq_left (Nat.le_add_right _ _), hprompt]
      have hpre : (((generateRaw cfg cand prompts mgl).1.tokens.getD i []).take
          ((prompts.getD i []).length + mgl)).take (prompts.getD i []).length
            <+: (((generateRaw cfg cand prompts mgl).1.tokens.getD i []).take
              ((prompts.getD i []).length + mgl)) :=
        ⟨_, List.take_append_drop _ _⟩
      rwa [htake] at hpre
    · -- no stop token occurs inside the prompt prefix
      apply le_findIdx_of_forall _ _ _ hbiglen
      intro k hk
      simp only [List.get_eq_getElem, List.getElem_take]
      have hkrow : k < ((generateRaw cfg cand prompts mgl).1.tokens.getD i []).length :=
        lt_of_lt_of_le hk hrowlen
      have hkval : ((generateRaw cfg cand prompts mgl).1.tokens.getD i [])[k]
          = (prompts.getD i [])[k] := by
        have h0 : (((generateRaw cfg cand prompts mgl).1.tokens.getD i []).take
            (prompts.getD i []).length)[k]? = (prompts.getD i [])[k]? := by
          rw [hprompt]
        rw [List.getElem?_take, if_pos hk, List.getElem?_eq_getElem hkrow,
          List.getElem?_eq_getElem hk] at h0
        exact Option.some.inj h0
      rw [hkval]
      simp only [decide_eq_false_iff_not]
      intro hmem
      exact hstop _ hmem (List.getElem_mem _)

theorem generate_output_window_witness :
    ((0 : Token) ∉ ([1, 2] : List Token))
    ∧ (∀ s ∈ ([9] : List Token), s ∉ ([1, 2] : List Token))
    ∧ ([1, 2] : List Token) <+:
        (([[1, 2, 7, 7]] : List (List Token)).getD 0 []) := by
  refine ⟨by decide, by decide, ?_⟩
  exact (generate_output_window ⟨10, 4, 0, [9]⟩ (fun _ _ => [7]) [[1, 2]] 2 true
    [[1, 2, 7, 7]] 2 rfl 0 (by decide)).2 rfl (by decide) (by decide)

/-- Counterexample to C5 as stated: a prompt that contains a stop token is
truncated inside the prompt when echoing, so the returned row does not
begin with the complete original prompt. -/
theorem echo_prompt_counterexample :
    generate ⟨10, 4, 0, [2]⟩ (fun _ _ => [7]) [[2, 3]] 1 true = .ok ([[]], 1)
    ∧ ¬ (([2, 3] : List Token) <+: ([] : List Token)) :=
  ⟨rfl, by decide⟩

/-- C4 (amended): the checks performed before any model call are batch
size at most `max_batch_size` and maximum prompt length at most
`max_seq_len`; an empty batch fails on the `min()` computation with a
`ValueError`; no check that prompt lengths are at least 1 exists. -/
theorem generate_checks (cfg : GenConfig) (cand : ℕ → List (List Token) → List Token)
    (prompts : List (List Token)) (mgl : ℕ) (echo : Bool) :
    (cfg.maxBatchSize < prompts.length →
      generate cfg cand prompts mgl echo = .error "InvalidInput")
    ∧ (prompts.length ≤ cfg.maxBatchSize → prompts = [] →
      generate cfg cand prompts mgl echo = .error "ValueError")
    ∧ (prompts.length ≤ cfg.maxBatchSize → prompts ≠ [] →
        cfg.maxSeqLen < maxPromptLen prompts →
      generate cfg cand prompts mgl echo = .error "InvalidInput") := by
  refine ⟨fun h => ?_, fun h1 h2 => ?_, fun h1 h2 h3 => ?_⟩
  · unfold generate
    rw [if_pos h]
  · unfold generate
    rw [if_neg (not_lt.mpr h1), if_pos (by simp [h2])]
  · unfold generate
    rw [if_neg (not_lt.mpr h1), if_neg (by simpa using h2), if_pos h3]

theorem generate_checks_witness :
    (2 : ℕ) < ([[1], [1], [1]] : List (List Token)).length
    ∧ generate ⟨10, 2, 0, []⟩ (fun _ _ => []) [[1], [1], [1]] 1 false
        = .error "InvalidInput" :=
  ⟨by decide,
   (generate_checks ⟨10, 2, 0, []⟩ (fun _ _ => []) [[1], [1], [1]] 1 false).1 (by decide)⟩

/-- Counterexample to C4 as stated: a zero-length prompt violates the
claimed precondition `prompt length ≥ 1`, yet the call passes both
asserts, the loop invokes the model twice (the count in the result), and
generation succeeds instead of failing with InvalidInput. -/
theorem generate_checks_counterexample :
    generate ⟨4, 2, 0, []⟩ (fun _ _ => [7]) [[]] 2 false = .ok ([[7, 7]], 2)
    ∧ (([] : List Token)).length < 1 :=
  ⟨rfl, by decide⟩

/-- One row of the stop-flag update of line 166, extracted. -/
theorem doStep_eos_getD (stops : List Token) (mask : List (List Bool)) (pos : ℕ)
    (c : List Token) (st : GenState) (i : ℕ) (hi : i < st.tokens.length) :
    (doStep stops mask pos c st).eosReached.getD i false
      = (st.eosReached.getD i false ||
          (!maskAt mask i pos
            && decide ((nextToks mask st.tokens c pos).getD i 0 ∈ stops))) := by
  rw [doStep_eos_def]
  exact getD_map_range _ _ _ _ hi

/-- C6: the per-row stop flag is monotone over decode steps, becomes newly
true exactly when the mask at the current column is false and the token
produced for the row is a stop token, and a prompt-replay column never
changes it. -/
theorem stopMask_spec (stops : List Token) (mask : List (List Bool))
    (cand : ℕ → List (List Token) → List Token) :
    (∀ (st : GenState) (pos : ℕ) (c : List Token) (i : ℕ), i < st.tokens.length →
      ((doStep stops mask pos c st).eosReached.getD i false = true
        ↔ (st.eosReached.getD i false = true
            ∨ (maskAt mask i pos = false
               ∧ (nextToks mask st.tokens c pos).getD i 0 ∈ stops))))
    ∧ (∀ (st : GenState) (pos : ℕ) (c : List Token) (i : ℕ), i < st.tokens.length →
        maskAt mask i pos = true →
        (doStep stops mask pos c st).eosReached.getD i false
          = st.eosReached.getD i false)
    ∧ (∀ (positions : List ℕ) (st : GenState) (i : ℕ), i < st.tokens.length →
        st.eosReached.getD i false = true →
        (genLoop stops mask cand positions st).1.eosReached.getD i false = true) := by
  refine ⟨fun st pos c i hi => ?_, fun st pos c i hi hm => ?_, fun positions => ?_⟩
  · rw [doStep_eos_getD _ _ _ _ _ _ hi]
    simp [Bool.or_eq_true, Bool.and_eq_true, Bool.not_eq_true']
  · rw [doStep_eos_getD _ _ _ _ _ _ hi, hm]
    simp
  · induction positions with
    | nil => exact fun st i _ h => h
    | cons pos rest ih =>
      intro st i hi h
      simp only [genLoop]
      split_ifs with hall
      · rw [doStep_eos_getD _ _ _ _ _ _ hi, h]
        simp
      · refine ih (doStep stops mask pos (cand pos st.tokens) st) i ?_ ?_
        · rw [doStep_tokens_length]
          exact hi
        · rw [doStep_eos_getD _ _ _ _ _ _ hi, h]
          simp

theorem stopMask_spec_witness :
    (0 : ℕ) < (([[0]] : List (List Token))).length
    ∧ ((doStep [9] [[false]] 0 [9] ⟨[[0]], [false]⟩).eosReached.getD 0 false = true
        ↔ (([false] : List Bool).getD 0 false = true
            ∨ (maskAt [[false]] 0 0 = false
               ∧ (nextToks [[false]] [[0]] [9] 0).getD 0 0 ∈ ([9] : List Token)))) :=
  ⟨by decide,
   (stopMask_spec [9] [[false]] (fun _ _ => [9])).1 ⟨[[0]], [false]⟩ 0 [9] 0 (by decide)⟩

/-- C9: with `pad_id = 0` occurring inside the first prompt before its
end, the mask reports the position as non-prompt, the decode loop
overwrites it with the sampled token 9, and the stop-token membership
test treats that token as freshly generated, setting the row's stop
flag. -/
theorem pad_inside_prompt_generated :
    maskAt (inputTextMask 0 (initTokens 0 4 [[5, 0, 6], [7]])) 0 1 = false
    ∧ (1 : ℕ) < (([5, 0, 6] : List Token)).length
    ∧ (generateRaw ⟨10, 4, 0, [9]⟩ (fun _ _ => [9, 9]) [[5, 0, 6], [7]] 1).1.tokens.getD 0 []
        = [5, 9, 6, 0]
    ∧ (generateRaw ⟨10, 4, 0, [9]⟩ (fun _ _ => [9, 9]) [[5, 0, 6], [7]] 1).1.eosReached
        = [true, true] :=
  ⟨by decide, by decide, by decide, by decide⟩

/-- C10: the token write of a step never consults the stop flags, so a
stopped row keeps receiving sampled tokens at the shared cursor; in the
concrete run below row 0 stops at the first decode step, its untrimmed
buffer still gains the tokens 6 and 9 at later columns, and only the
post-processing truncation removes them from the returned output. -/
theorem stopped_rows_not_frozen :
    (∀ (stops : List Token) (mask : List (List Bool)) (pos : ℕ) (c : List Token)
        (toks : List (List Token)) (eos1 eos2 : List Bool),
        (doStep stops mask pos c ⟨toks, eos1⟩).tokens
          = (doStep stops mask pos c ⟨toks, eos2⟩).tokens)
    ∧ (doStep [9] (inputTextMask 0 (initTokens 0 4 [[1], [2]])) 1 [9, 5]
        ⟨initTokens 0 4 [[1], [2]], [false, false]⟩).eosReached = [true, false]
    ∧ (generateRaw ⟨10, 4, 0, [9]⟩
        (fun pos _ => if pos = 1 then [9, 5] else if pos = 2 then [6, 5] else [9, 9])
        [[1], [2]] 3).1.tokens = [[1, 9, 6, 9], [2, 5, 5, 9]]
    ∧ generate ⟨10, 4, 0, [9]⟩
        (fun pos _ => if pos = 1 then [9, 5] else if pos = 2 then [6, 5] else [9, 9])
        [[1], [2]] 3 false = .ok ([[], [5, 5]], 3) :=
  ⟨fun _ _ _ _ _ _ _ => rfl, by decide, by decide, rfl⟩

/-! ### Nucleus-sampler lemmas -/

theorem length_cumsum (l : List ℚ) : (cumsum l).length = l.length := by
  simp [cumsum]

theorem length_truncate (pv : List ℚ) (p : ℚ) : (truncate pv p).length = pv.length := by
  simp [truncate, length_cumsum]

theorem truncate_getD (pv : List ℚ) (p : ℚ) (k : ℕ) (hk : k < pv.length) :
    (truncate pv p).getD k 0
      = if p < (pv.take k).sum then 0 else pv.getD k 0 := by
  have hkz : k < (pv.zip (cumsum pv)).length := by
    rw [List.length_zip, length_cumsum]
    simpa using hk
  unfold truncate
  rw [List.getD_eq_getElem _ _ (by simpa using hkz)]
  simp only [List.getElem_map, List.getElem_zip]
  have hkc : k < (cumsum pv).length := by
    rw [length_cumsum]
    exact hk
  have hcum : (cumsum pv)[k] = (pv.take (k + 1)).sum := by
    simp [cumsum]
  rw [hcum]
  have hdiff : (pv.take (k + 1)).sum - pv[k] = (pv.take k).sum := by
    rw [List.sum_take_succ _ _ hk]
    ring
  rw [hdiff, List.getD_eq_getElem _ _ hk]

theorem sum_take_mono (l : List ℚ) (hnn : ∀ x ∈ l, 0 ≤ x) {a b : ℕ} (hab : a ≤ b) :
    (l.take a).sum ≤ (l.take b).sum := by
  have hb : b = a + (b - a) := by omega
  rw [hb, List.take_add, List.sum_append]
  have hrest : 0 ≤ (((l.drop a)).take (b - a)).sum := by
    apply List.sum_nonneg
    intro x hx
    exact hnn x (List.mem_of_mem_drop (List.mem_of_mem_take hx))
  linarith

theorem multinomial_spec (ws : List ℚ) (r : ℚ) (hr0 : 0 ≤ r) (hrs : r < ws.sum)
    (hnn : ∀ w ∈ ws, 0 ≤ w) :
    multinomial ws r < ws.length ∧ 0 < ws.getD (multinomial ws r) 0 := by
  induction ws generalizing r with
  | nil =>
    rw [List.sum_nil] at hrs
    linarith
  | cons w ws ih =>
    rw [multinomial]
    split_ifs with h
    · exact ⟨by simp, by rw [List.getD_cons_zero]; exact lt_of_le_of_lt hr0 h⟩
    · push_neg at h
      have h1 : 0 ≤ r - w := by linarith
      have h2 : r - w < ws.sum := by
        rw [List.sum_cons] at hrs
        linarith
      obtain ⟨ha, hb⟩ := ih (r - w) h1 h2 (fun x hx => hnn x (by simp [hx]))
      refine ⟨by simpa using Nat.succ_lt_succ ha, ?_⟩
      rw [List.getD_cons_succ]
      exact hb

theorem sortDesc_length (probs : List ℚ) : (sortDesc probs).length = probs.length := by
  simp [sortDesc]

theorem probsSort_length (probs : List ℚ) : (probsSort probs).length = probs.length := by
  simp [probsSort, sortDesc_length]

theorem probsSort_perm (probs : List ℚ) : (probsSort probs).Perm probs := by
  unfold probsSort sortDesc
  have h1 := List.mergeSort_perm (probs.zip (List.range probs.length))
    (fun a b => decide (b.1 ≤ a.1))
  have h2 := h1.map Prod.fst
  rwa [List.map_fst_zip _ _ (by simp)] at h2

theorem probsSort_sorted (probs : List ℚ) :
    (probsSort probs).Pairwise (fun a b => b ≤ a) := by
  unfold probsSort sortDesc
  refine List.Pairwise.map _ ?_ (List.sorted_mergeSort ?_ ?_ _)
  · intro a b hab
    simpa using hab
  · intro a b c hab hbc
    simp only [decide_eq_true_eq] at hab hbc ⊢
    exact le_trans hbc hab
  · intro a b
    simp [le_total]

theorem sortDesc_mem_pairs (probs : List ℚ) (v : ℚ) (k : ℕ)
    (h : (v, k) ∈ sortDesc probs) : k < probs.length ∧ probs.getD k 0 = v := by
  have hmem : (v, k) ∈ probs.zip (List.range probs.length) := by
    unfold sortDesc at h
    exact List.mem_mergeSort.mp h
  obtain ⟨n, hn, heq⟩ := List.mem_iff_getElem.mp hmem
  have hn' : n < probs.length := by
    rw [List.length_zip] at hn
    exact lt_of_lt_of_le hn (min_le_left _ _)
  rw [List.getElem_zip] at heq
  have hn2 : n < (List.range probs.length).length := by simpa using hn'
  have h1 : probs[n] = v := congrArg Prod.fst heq
  have h2 : (List.range probs.length)[n] = k := congrArg Prod.snd heq
  rw [List.getElem_range] at h2
  subst h2
  exact ⟨hn', by rw [List.getD_eq_getElem _ _ hn']; exact h1⟩

theorem list_sum_nonpos (l : List ℚ) (h : ∀ x ∈ l, x ≤ 0) : l.sum ≤ 0 := by
  induction l with
  | nil => simp
  | cons a l ih =>
    rw [List.sum_cons]
    have h1 := h a (by simp)
    have h2 := ih (fun x hx => h x (by simp [hx]))
    linarith

theorem probsSort_head_pos (probs : List ℚ)
    (hsum : probs.sum = 1) : 0 < (probsSort probs).getD 0 0 := by
  have hne : probs ≠ [] := by
    intro h
    rw [h, List.sum_nil] at hsum
    exact absurd hsum (by norm_num)
  have hlen : 0 < (probsSort probs).length := by
    rw [probsSort_length]
    exact List.length_pos.mpr hne
  have hsum' : (probsSort probs).sum = 1 := by
    rw [(probsSort_perm probs).sum_eq, hsum]
  have hpos : ∃ x ∈ probsSort probs, 0 < x := by
    by_contra hcon
    push_neg at hcon
    have := list_sum_nonpos _ hcon
    rw [hsum'] at this
    linarith
  obtain ⟨x, hx, hxpos⟩ := hpos
  obtain ⟨j, hj, hjx⟩ := List.mem_iff_getElem.mp hx
  rw [List.getD_eq_getElem _ _ hlen]
  rcases Nat.eq_zero_or_pos j with h0 | h0
  · subst h0
    rw [hjx]
    exact hxpos
  · have hle := List.pairwise_iff_get.mp (probsSort_sorted probs) ⟨0, hlen⟩ ⟨j, hj⟩ h0
    simp only [List.get_eq_getElem] at hle
    rw [hjx] at hle
    exact lt_of_lt_of_le hxpos hle

theorem truncate_nonneg (pv : List ℚ) (p : ℚ) (hnn : ∀ x ∈ pv, 0 ≤ x) :
    ∀ x ∈ truncate pv p, 0 ≤ x := by
  intro x hx
  unfold truncate at hx
  obtain ⟨sc, hsc, hval⟩ := List.mem_map.mp hx
  rw [← hval]
  split_ifs
  · exact le_refl 0
  · exact hnn _ (List.of_mem_zip hsc).1

theorem truncate_getD_zero (pv : List ℚ) (p : ℚ) (hp : 0 < p) (hlen : 0 < pv.length) :
    (truncate pv p).getD 0 0 = pv.getD 0 0 := by
  rw [truncate_getD _ _ _ hlen]
  rw [if_neg]
  simp only [List.take_zero, List.sum_nil, not_lt]
  exact hp.le

theorem truncate_sum_pos (pv : List ℚ) (p : ℚ) (hnn : ∀ x ∈ pv, 0 ≤ x)
    (hp : 0 < p) (hhead : 0 < pv.getD 0 0) (hlen : 0 < pv.length) :
    0 < (truncate pv p).sum := by
  have h0 : (truncate pv p).getD 0 0 = pv.getD 0 0 := truncate_getD_zero pv p hp hlen
  have hlen' : 0 < (truncate pv p).length := by
    rw [length_truncate]
    exact hlen
  have hmem : (truncate pv p).getD 0 0 ∈ truncate pv p := by
    rw [List.getD_eq_getElem _ _ hlen']
    exact List.getElem_mem _
  have := List.single_le_sum (truncate_nonneg pv p hnn) _ hmem
  rw [h0] at this
  linarith

theorem sum_map_div (l : List ℚ) (T : ℚ) : (l.map (fun x => x / T)).sum = l.sum / T := by
  induction l with
  | nil => simp
  | cons a l ih => simp [List.sum_cons, ih, add_div]

theorem renorm_sum (l : List ℚ) (hl : l.sum ≠ 0) : (renorm l).sum = 1 := by
  unfold renorm
  rw [sum_map_div]
  exact div_self hl

theorem renorm_getD (l : List ℚ) (k : ℕ) :
    (renorm l).getD k 0 = l.getD k 0 / l.sum := by
  unfold renorm
  have h := List.getD_map l 0 (n := k) (fun x => x / l.sum)
  rw [zero_div] at h
  exact h

theorem renorm_length (l : List ℚ) : (renorm l).length = l.length := by
  simp [renorm]

theorem renorm_nonneg (l : List ℚ) (hnn : ∀ x ∈ l, 0 ≤ x) (hT : 0 ≤ l.sum) :
    ∀ x ∈ renorm l, 0 ≤ x := by
  intro x hx
  unfold renorm at hx
  obtain ⟨y, hy, hval⟩ := List.mem_map.mp hx
  rw [← hval]
  exact div_nonneg (hnn y hy) hT

theorem range_find?_spec {q : ℕ → Bool} {n m : ℕ}
    (h : (List.range n).find? q = some m) :
    q m = true ∧ m < n ∧ ∀ j < m, q j = false := by
  induction n with
  | zero => simp [List.range_zero] at h
  | succ n ih =>
    rw [List.range_succ, List.find?_append] at h
    cases hfind : (List.range n).find? q with
    | some m' =>
      rw [hfind] at h
      have hm : m' = m := by simpa [Option.or] using h
      subst hm
      obtain ⟨h1, h2, h3⟩ := ih hfind
      exact ⟨h1, by omega, h3⟩
    | none =>
      rw [hfind] at h
      have hall : ∀ j < n, q j = false := by
        intro j hj
        have := List.find?_eq_none.mp hfind j (List.mem_range.mpr hj)
        simpa using this
      cases hqn : q n with
      | true =>
        have hm : m = n := by
          simp only [Option.or] at h
          rw [List.find?_cons, hqn] at h
          simpa using h.symm
        subst hm
        exact ⟨hqn, by omega, hall⟩
      | false =>
        rw [List.find?_cons, hqn] at h
        simp [Option.or] at h

theorem countP_range_of_iff {q : ℕ → Bool} {m : ℕ} : ∀ {n : ℕ},
    (∀ k < n, (q k = true ↔ k < m)) → (List.range n).countP q = min m n := by
  intro n
  induction n with
  | zero => simp
  | succ n ih =>
    intro h
    rw [List.range_succ, List.countP_append, ih (fun k hk => h k (by omega))]
    have hsing : List.countP q [n] = if q n = true then 1 else 0 := by
      simp [List.countP_cons]
    rw [hsing]
    rcases Nat.lt_or_ge n m with hn | hn
    · rw [if_pos ((h n (by omega)).mpr hn)]
      omega
    · have : q n = false := by
        cases hq : q n with
        | false => rfl
        | true => exact absurd ((h n (by omega)).mp hq) (by omega)
      rw [this]
      simp
      omega

/-- Characterisation of the kept set: the number of entries the mask keeps
equals the size of the smallest sorted prefix whose cumulative sum
strictly exceeds `p` (all entries when none does), and an entry is kept
exactly when it lies inside that prefix. -/
theorem keptCount_eq (pv : List ℚ) (p : ℚ) (hnn : ∀ x ∈ pv, 0 ≤ x) :
    keptCount pv p = smallestPrefixExceeding pv p
    ∧ ∀ k < pv.length, ((pv.take k).sum ≤ p ↔ k < keptCount pv p) := by
  unfold keptCount smallestPrefixExceeding
  cases hfind : (List.range (pv.length + 1)).find? (fun k => decide (p < (pv.take k).sum)) with
  | some m =>
    obtain ⟨h1, h2, h3⟩ := range_find?_spec hfind
    have hm : m ≤ pv.length := by omega
    have hiff : ∀ k < pv.length, ((!decide (p < (pv.take k).sum)) = true ↔ k < m) := by
      intro k hk
      simp only [Bool.not_eq_true', decide_eq_false_iff_not, not_lt]
      constructor
      · intro hle
        by_contra hge
        push_neg at hge
        have hmono := sum_take_mono pv hnn hge
        have := h1
        simp only [decide_eq_true_eq] at this
        linarith
      · intro hkm
        have := h3 k hkm
        simp only [decide_eq_false_iff_not, not_lt] at this
        exact this
    have hcount : (List.range pv.length).countP (fun k => !decide (p < (pv.take k).sum))
        = min m pv.length := countP_range_of_iff hiff
    rw [hcount, min_eq_left hm]
    refine ⟨by simp, ?_⟩
    intro k hk
    have := hiff k hk
    simpa using this
  | none =>
    have hall : ∀ j < pv.length + 1, ¬ p < (pv.take j).sum := by
      intro j hj
      have := List.find?_eq_none.mp hfind j (List.mem_range.mpr hj)
      simpa using this
    have hiff : ∀ k < pv.length, ((!decide (p < (pv.take k).sum)) = true ↔ k < pv.length) := by
      intro k hk
      simp only [Bool.not_eq_true', decide_eq_false_iff_not]
      exact ⟨fun _ => hk, fun _ => hall k (by omega)⟩
    have hcount : (List.range pv.length).countP (fun k => !decide (p < (pv.take k).sum))
        = min pv.length pv.length := countP_range_of_iff hiff
    rw [hcount, min_self]
    refine ⟨by simp, ?_⟩
    intro k hk
    exact ⟨fun _ => hk, fun _ => not_lt.mp (hall k (by omega))⟩

/-- C1 (amended: the kept set is the sorted prefix of entries whose
preceding cumulative sum is at most `p`, i.e. the smallest sorted prefix
whose cumulative probability strictly exceeds `p` when the total does and
all entries otherwise — not the smallest prefix merely reaching `p`, which
differs at exact ties): `sample_top_p` sorts descending, zeroes exactly
the entries whose cumulative sum minus their own probability exceeds `p`,
renormalizes the rest to sum 1, draws a sorted position lying inside the
kept prefix, and maps it back to the original vocabulary index carrying
the drawn probability. -/
theorem sample_top_p_correct (probs : List ℚ) (p r : ℚ)
    (hnn : ∀ x ∈ probs, 0 ≤ x) (hsum : probs.sum = 1)
    (hp0 : 0 < p) (hp1 : p ≤ 1) (hr0 : 0 ≤ r) (hr1 : r < 1) :
    (probsSort probs).Pairwise (fun a b => b ≤ a)
    ∧ (probsSort probs).Perm probs
    ∧ (∀ k, k < probs.length →
        (truncate (probsSort probs) p).getD k 0
          = if p < ((probsSort probs).take k).sum then 0
            else (probsSort probs).getD k 0)
    ∧ keptCount (probsSort probs) p = smallestPrefixExceeding (probsSort probs) p
    ∧ (renorm (truncate (probsSort probs) p)).sum = 1
    ∧ sampledSortedPos probs p r < keptCount (probsSort probs) p
    ∧ sample_top_p probs p r = (probsIdx probs).getD (sampledSortedPos probs p r) 0
    ∧ probs.getD (sample_top_p probs p r) 0
        = (probsSort probs).getD (sampledSortedPos probs p r) 0 := by
  have hnn' : ∀ x ∈ probsSort probs, 0 ≤ x :=
    fun x hx => hnn x ((probsSort_perm probs).mem_iff.mp hx)
  have hhead : 0 < (probsSort probs).getD 0 0 := probsSort_head_pos probs hsum
  have hlenpos : 0 < (probsSort probs).length := by
    by_contra h
    push_neg at h
    rw [List.getD_eq_default _ _ (by omega)] at hhead
    exact lt_irrefl _ hhead
  have hT : 0 < (truncate (probsSort probs) p).sum :=
    truncate_sum_pos _ _ hnn' hp0 hhead hlenpos
  have hrsum : (renorm (truncate (probsSort probs) p)).sum = 1 :=
    renorm_sum _ (ne_of_gt hT)
  have htrunc_nn := truncate_nonneg (probsSort probs) p hnn'
  have hren_nn := renorm_nonneg _ htrunc_nn hT.le
  have hmulti := multinomial_spec (renorm (truncate (probsSort probs) p)) r hr0
    (by rw [hrsum]; exact hr1) hren_nn
  have hspu : sampledSortedPos probs p r
      = multinomial (renorm (truncate (probsSort probs) p)) r := rfl
  have hipos : sampledSortedPos probs p r < (probsSort probs).length := by
    rw [hspu]
    have := hmulti.1
    rwa [renorm_length, length_truncate] at this
  have hren_pos : 0 < (renorm (truncate (probsSort probs) p)).getD
      (sampledSortedPos probs p r) 0 := by
    rw [hspu]
    exact hmulti.2
  rw [renorm_getD] at hren_pos
  have htrunc_pos : 0 < (truncate (probsSort probs) p).getD (sampledSortedPos probs p r) 0 := by
    rcases div_pos_iff.mp hren_pos with ⟨h1, _⟩ | ⟨_, h2⟩
    · exact h1
    · exact absurd hT (by linarith)
  have hkept : ((probsSort probs).take (sampledSortedPos probs p r)).sum ≤ p := by
    rw [truncate_getD _ _ _ hipos] at htrunc_pos
    by_contra hcon
    push_neg at hcon
    rw [if_pos hcon] at htrunc_pos
    exact lt_irrefl 0 htrunc_pos
  have hkc := keptCount_eq (probsSort probs) p hnn'
  have hikept : sampledSortedPos probs p r < keptCount (probsSort probs) p :=
    (hkc.2 _ hipos).mp hkept
  have hilen2 : sampledSortedPos probs p r < (sortDesc probs).length := by
    rw [sortDesc_length]
    rwa [probsSort_length] at hipos
  have hpair := sortDesc_mem_pairs probs
    ((sortDesc probs)[sampledSortedPos probs p r]).1
    ((sortDesc probs)[sampledSortedPos probs p r]).2
    (by rw [Prod.mk.eta]; exact List.getElem_mem _)
  have hidx : (probsIdx probs).getD (sampledSortedPos probs p r) 0
      = ((sortDesc probs)[sampledSortedPos probs p r]).2 := by
    unfold probsIdx
    rw [List.getD_eq_getElem _ _ (by simpa using hilen2), List.getElem_map]
  have hval : (probsSort probs).getD (sampledSortedPos probs p r) 0
      = ((sortDesc probs)[sampledSortedPos probs p r]).1 := by
    unfold probsSort
    rw [List.getD_eq_getElem _ _ (by simpa using hilen2), List.getElem_map]
  refine ⟨probsSort_sorted probs, probsSort_perm probs, ?_, hkc.1, hrsum, hikept, rfl, ?_⟩
  · intro k hk
    exact truncate_getD _ _ _ (by rwa [probsSort_length])
  · have hsp : sample_top_p probs p r
        = (probsIdx probs).getD (sampledSortedPos probs p r) 0 := rfl
    rw [hsp, hidx, hpair.2, hval]

theorem sample_top_p_correct_witness :
    ([(3:ℚ)/4, 1/4].sum = 1)
    ∧ sampledSortedPos [3/4, 1/4] (1/2) 0 < keptCount (probsSort [3/4, 1/4]) (1/2) :=
  ⟨by norm_num,
   (sample_top_p_correct [3/4, 1/4] (1/2) 0 (by norm_num) (by norm_num) (by norm_num)
      (by norm_num) (by norm_num) (by norm_num)).2.2.2.2.2.1⟩

/-- Counterexample to C1's characterisation of the kept set: for the
distribution `[1/2, 1/2]` and `p = 1/2` the mask zeroes nothing — the code
keeps both sorted entries and at random point `3/4` returns vocabulary
index 1 — while the claimed kept set, the smallest sorted prefix whose
cumulative probability reaches or exceeds `p`, has exactly one entry. -/
theorem nucleus_kept_set_counterexample :
    probsSort [1/2, 1/2] = [1/2, 1/2]
    ∧ truncate [1/2, 1/2] (1/2) = [1/2, 1/2]
    ∧ keptCount [1/2, 1/2] (1/2) = 2
    ∧ smallestPrefixReaching [1/2, 1/2] (1/2) = 1
    ∧ sample_top_p [1/2, 1/2] (1/2) (3/4) = 1 := by
  refine ⟨?_, ?_, ?_, ?_, ?_⟩
  · norm_num [probsSort, sortDesc, List.range_succ, List.mergeSort, List.merge,
      List.splitInTwo]
  · norm_num [truncate, cumsum, List.range_succ]
  · norm_num [keptCount, List.range_succ, List.countP_cons, List.countP_nil]
  · norm_num [smallestPrefixReaching, List.range_succ, List.find?]
  · norm_num [sample_top_p, sampledSortedPos, probsIdx, probsSort, sortDesc,
      List.range_succ, List.mergeSort, List.merge, List.splitInTwo, renorm, truncate,
      cumsum, multinomial]

/-- C7: the largest sorted entry's cumulative sum minus itself is 0, which
never exceeds a positive `p`, so the top entry is never zeroed and the
renormalisation divisor is strictly positive — the sampler never draws
from an all-zero vector. -/
theorem sample_top_p_top_kept (probs : List ℚ) (p : ℚ)
    (hnn : ∀ x ∈ probs, 0 ≤ x) (hpos : 0 < (probsSort probs).getD 0 0) (hp : 0 < p) :
    (cumsum (probsSort probs)).getD 0 0 - (probsSort probs).getD 0 0 = 0
    ∧ (truncate (probsSort probs) p).getD 0 0 = (probsSort probs).getD 0 0
    ∧ 0 < (truncate (probsSort probs) p).sum := by
  have hnn' : ∀ x ∈ probsSort probs, 0 ≤ x :=
    fun x hx => hnn x ((probsSort_perm probs).mem_iff.mp hx)
  have hlenpos : 0 < (probsSort probs).length := by
    by_contra h
    push_neg at h
    rw [List.getD_eq_default _ _ (by omega)] at hpos
    exact lt_irrefl _ hpos
  refine ⟨?_, truncate_getD_zero _ _ hp hlenpos,
    truncate_sum_pos _ _ hnn' hp hpos hlenpos⟩
  rw [List.getD_eq_getElem _ _ (by rw [length_cumsum]; exact hlenpos)]
  have hlc : 0 < (cumsum (probsSort probs)).length := by
    rw [length_cumsum]
    exact hlenpos
  have hc : (cumsum (probsSort probs))[0] = ((probsSort probs).take 1).sum := by
    simp [cumsum]
  rw [hc, List.sum_take_succ _ 0 hlenpos, List.getD_eq_getElem _ _ hlenpos]
  simp

theorem sample_top_p_top_kept_witness :
    (0 : ℚ) < (probsSort [3/4, 1/4]).getD 0 0
    ∧ 0 < (truncate (probsSort [3/4, 1/4]) (1/2)).sum :=
  ⟨by norm_num [probsSort, sortDesc, List.range_succ, List.mergeSort, List.merge,
      List.splitInTwo],
   (sample_top_p_top_kept [3/4, 1/4] (1/2) (by norm_num)
      (by norm_num [probsSort, sortDesc, List.range_succ, List.mergeSort, List.merge,
        List.splitInTwo]) (by norm_num)).2.2⟩

end Jllama
